import Mathlib

set_option maxHeartbeats 1000000

/-!
Shallow embedding of the merkletree Go package: the types from types.go, the
operations from merkletree.go, and the helpers getNextPowerOfTwo and getRoot
from the auxiliary source file.

Digests are modelled by a type parameter alpha together with the two hash
functions hashLeaf and hashNode; the Go code instantiates these with SHA-256
rendered as a lowercase hex string, and no claim inspects digests beyond
their symbolic structure.  Go int is modelled as a 64-bit signed integer
(the usual build), uint64 index arguments as natural numbers below 2^64, and
a Go runtime panic as an explicit GoResult.panicked value.  The Go code
mutates nodes through parent pointers; the embedding keeps the downward tree
structure and performs the same leaf-to-root walks by recursion from the
root, which is equivalent because every walk terminates exactly at the root
object and visits the same nodes in the same order.
-/

/-- Outcome of a Go function call: a normal value, an error return value, or
a runtime panic. -/
inductive GoResult (α : Type) where
  | ok (val : α)
  | err (msg : String)
  | panicked (msg : String)
deriving DecidableEq

/-- Node of the Merkle tree (types.go).  The Go struct stores hash, left,
right and a parent back-pointer; a node with nil children is a leaf.  The
functional embedding keeps the downward structure only. -/
inductive Node (α : Type) where
  | leaf (hash : α)
  | inner (hash : α) (left : Node α) (right : Node α)
deriving DecidableEq

namespace Node

variable {α : Type}

/-- Hash field of a node. -/
def hash : Node α → α
  | .leaf h => h
  | .inner h _ _ => h

/-- Number of leaves of a subtree.  For a tree built by NewMerkleTree this
equals len(t.leaves), the length of the slice allNodes[:requiredLeaves]. -/
def leafCount : Node α → Nat
  | .leaf _ => 1
  | .inner _ l r => leafCount l + leafCount r

/-- Hashes of the leaves of a subtree, left to right: the hash fields of the
t.leaves slice restricted to this subtree. -/
def leaves : Node α → List α
  | .leaf h => [h]
  | .inner _ l r => leaves l ++ leaves r

/-- Hash of the leaf at the given index, t.leaves[index].hash. -/
def getLeafHash : Node α → Nat → α
  | .leaf h, _ => h
  | .inner _ l r, i =>
      if i < l.leafCount then l.getLeafHash i else r.getLeafHash (i - l.leafCount)

/-- Sibling hashes and directions along the walk from the leaf at the given
index up to the root, leaf level first (the loop shared by GetProof and
GetAggregatedProof).  When the parent is entered from its left child the Go
loop records the right sibling and direction false, otherwise the left
sibling and direction true. -/
def proofPath : Node α → Nat → List α × List Bool
  | .leaf _, _ => ([], [])
  | .inner _ l r, i =>
      if i < l.leafCount then
        ((proofPath l i).1 ++ [r.hash], (proofPath l i).2 ++ [false])
      else
        ((proofPath r (i - l.leafCount)).1 ++ [l.hash],
         (proofPath r (i - l.leafCount)).2 ++ [true])

/-- Invariant of section 3 of the specification: every node with children
carries the node-hash of its two children. -/
def hashValid [DecidableEq α] (hashNode : α → α → α) : Node α → Bool
  | .leaf _ => true
  | .inner h l r =>
      decide (h = hashNode l.hash r.hash) && hashValid hashNode l && hashValid hashNode r

end Node

/-- Conversion of a uint64 value (a natural number below 2^64) to a Go int
on a 64-bit build: values of 2^63 and above wrap around to negatives.  The
literals are 2^63 and 2^64. -/
def uint64ToInt (n : Nat) : Int :=
  if n < 9223372036854775808 then (n : Int) else (n : Int) - 18446744073709551616

/-- Wraparound of an integer into the int64 range, used where Go 64-bit
addition can overflow.  The literals are 2^63 and 2^64. -/
def wrapInt64 (x : Int) : Int :=
  (x + 9223372036854775808) % 18446744073709551616 - 9223372036854775808

/-- Bit-smearing next-power-of-two helper from the auxiliary source file.
The five or-shift steps smear the most significant bit over the 32 bits
below it; the argument of the smear is nonnegative in this branch, so the Go
arithmetic right shifts agree with natural-number shifts, and only the final
increment can overflow int64. -/
def getNextPowerOfTwo (n : Int) : Int :=
  if n ≤ 0 then 1
  else
    let m0 := (n - 1).toNat
    let m1 := m0 ||| (m0 >>> 1)
    let m2 := m1 ||| (m1 >>> 2)
    let m3 := m2 ||| (m2 >>> 4)
    let m4 := m3 ||| (m3 >>> 8)
    let m5 := m4 ||| (m4 >>> 16)
    wrapInt64 ((m5 : Int) + 1)

/-- Single-element Merkle proof (types.go). -/
structure MerkleProof (α : Type) where
  hElement : α
  siblings : List α
  directions : List Bool
deriving DecidableEq

/-- Merkle tree (types.go): the Go struct owns the root node and a slice of
leaf pointers into the same tree; the slice is recoverable as
Node.leaves of the root and its length as Node.leafCount of the root. -/
structure MerkleTree (α : Type) where
  root : Node α
deriving DecidableEq

/-- Aggregated range proof (types.go).  The source field named end is a Lean
keyword and is rendered endIdx here. -/
structure AggregatedMerkleProof (α : Type) where
  start : Nat
  endIdx : Nat
  siblings : List α
  directions : List Bool
deriving DecidableEq

/-- Root hash accessor getRoot from the auxiliary source file.  The Go nil
check has no counterpart: a tree value always carries a root node. -/
def MerkleTree.getRoot {α : Type} (t : MerkleTree α) : α :=
  t.root.hash

/-- Loop body of VerifyProof and VerifyAggregatedProof: fold the sibling
hashes over the current hash, consuming one direction per sibling.  Go reads
directions[i] while ranging over siblings, so when the directions run out
first the read panics, modelled as none; surplus directions are ignored. -/
def verifyLoop {α : Type} (hashNode : α → α → α) : α → List α → List Bool → Option α
  | cur, [], _ => some cur
  | _, _ :: _, [] => none
  | cur, s :: ss, d :: ds =>
      verifyLoop hashNode (if d then hashNode s cur else hashNode cur s) ss ds

/-- VerifyProof from merkletree.go. -/
def VerifyProof {α : Type} [DecidableEq α] (hashNode : α → α → α)
    (root : α) (proof : MerkleProof α) : GoResult Bool :=
  match verifyLoop hashNode proof.hElement proof.siblings proof.directions with
  | some c => .ok (decide (c = root))
  | none => .panicked "index out of range"

/-- GetProof from merkletree.go.  The bounds check casts the uint64 index to
int, so an index of 2^63 or above wraps negative, passes the check, and the
subsequent slice access t.leaves[index] panics. -/
def MerkleTree.GetProof {α : Type} (t : MerkleTree α) (index : Nat) :
    GoResult (MerkleProof α) :=
  if uint64ToInt index ≥ (t.root.leafCount : Int) then .err "index out of bounds"
  else if t.root.leafCount ≤ index then .panicked "index out of range"
  else .ok ⟨t.root.getLeafHash index, (t.root.proofPath index).1, (t.root.proofPath index).2⟩

/-- Inner loop of NewMerkleTree: combine adjacent nodes of one level in
left-to-right order.  On a level of odd length at least three the Go access
leaves[i+1] runs past the slice and panics, modelled as none.  A singleton
level is only reached when the outer loop has already stopped. -/
def pairUp {α : Type} (hashNode : α → α → α) : List (Node α) → Option (List (Node α))
  | [] => some []
  | [_] => none
  | a :: b :: rest =>
      (pairUp hashNode rest).map fun m => Node.inner (hashNode a.hash b.hash) a b :: m

/-- Outer loop of NewMerkleTree: repeat pairUp while more than one node
remains.  The fuel argument bounds the number of iterations; NewMerkleTree
passes the level length, which always suffices because levels halve. -/
def buildLoop {α : Type} (hashNode : α → α → α) : Nat → List (Node α) → GoResult (Node α)
  | _, [t] => .ok t
  | _, [] => .panicked "index out of range"
  | 0, _ :: _ :: _ => .panicked "out of fuel"
  | fuel + 1, a :: b :: rest =>
      match pairUp hashNode (a :: b :: rest) with
      | none => .panicked "index out of range"
      | some m => buildLoop hashNode fuel m

/-- NewMerkleTree from merkletree.go: hash the elements into leaves, pad
with empty-string leaves up to getNextPowerOfTwo of the element count, and
build the levels bottom up.  A negative requiredLeaves (int64 overflow of
the helper) makes the final slice expression allNodes[:requiredLeaves]
panic. -/
def NewMerkleTree {α : Type} (hashLeaf : String → α) (hashNode : α → α → α)
    (elements : List String) : GoResult (MerkleTree α) :=
  if elements.length = 0 then .err "no elements to create a Merkle Tree"
  else
    let lvs := elements.map fun e => Node.leaf (hashLeaf e)
    let requiredLeaves := getNextPowerOfTwo (elements.length : Int)
    if requiredLeaves < 0 then .panicked "slice bounds out of range"
    else
      let padded := lvs ++ List.replicate (requiredLeaves.toNat - lvs.length)
        (Node.leaf (hashLeaf ""))
      match buildLoop hashNode padded.length padded with
      | .ok r => .ok ⟨r⟩
      | .err m => .err m
      | .panicked m => .panicked m

/-- Leaf-to-root rehashing walk of UpdateElement: replace the hash of the
leaf at the index and recompute each ancestor hash from its two children,
reading the untouched sibling hash at every level exactly as the Go loop
does. -/
def updateAt {α : Type} (hashLeaf : String → α) (hashNode : α → α → α) :
    Node α → Nat → String → Node α
  | .leaf _, _, element => .leaf (hashLeaf element)
  | .inner _ l r, i, element =>
      if i < l.leafCount then
        let l2 := updateAt hashLeaf hashNode l i element
        .inner (hashNode l2.hash r.hash) l2 r
      else
        let r2 := updateAt hashLeaf hashNode r (i - l.leafCount) element
        .inner (hashNode l.hash r2.hash) l r2

/-- UpdateElement from merkletree.go.  The bounds check has the same uint64
to int cast as GetProof, with the same panic for indices of 2^63 and above.
On an error return or a panic the Go tree is untouched, because validation
and the panicking index expression both precede the first mutation; the
functional embedding therefore returns a tree only in the ok case. -/
def MerkleTree.UpdateElement {α : Type} (hashLeaf : String → α) (hashNode : α → α → α)
    (t : MerkleTree α) (index : Nat) (element : String) : GoResult (MerkleTree α) :=
  if uint64ToInt index ≥ (t.root.leafCount : Int) then .err "index out of bounds"
  else if t.root.leafCount ≤ index then .panicked "index out of range"
  else .ok ⟨updateAt hashLeaf hashNode t.root index element⟩

/-- GetAggregatedProof from merkletree.go: after the two error checks it
walks the path of the start leaf only.  The range check casts endIndex to
int, so an endIndex of 2^63 or above wraps negative and slips past the
check; the walk then panics when startIndex is also out of range, and
otherwise succeeds. -/
def MerkleTree.GetAggregatedProof {α : Type} (t : MerkleTree α)
    (startIndex endIndex : Nat) : GoResult (AggregatedMerkleProof α) :=
  if startIndex ≥ endIndex ∨ uint64ToInt endIndex > (t.root.leafCount : Int) then
    .err "index out of bounds"
  else if endIndex - startIndex < 1 then
    .err "an aggregated proof must contain at least two elements"
  else if t.root.leafCount ≤ startIndex then .panicked "index out of range"
  else .ok ⟨startIndex, endIndex, (t.root.proofPath startIndex).1,
            (t.root.proofPath startIndex).2⟩

/-- VerifyAggregatedProof from merkletree.go: the range check compares plain
uint64 values, then the start hash is read from the live tree and the
sibling fold is replayed as in VerifyProof. -/
def VerifyAggregatedProof {α : Type} [DecidableEq α] (hashNode : α → α → α)
    (root : α) (aggProof : AggregatedMerkleProof α) (tree : MerkleTree α) : GoResult Bool :=
  if aggProof.start ≥ aggProof.endIdx ∨ tree.root.leafCount < aggProof.endIdx then
    .ok false
  else
    match verifyLoop hashNode (tree.root.getLeafHash aggProof.start)
        aggProof.siblings aggProof.directions with
    | some c => .ok (decide (c = root))
    | none => .panicked "index out of range"

/-- Free algebra of hash terms, used to instantiate the digest parameter in
concrete computations: both constructors are injective, mirroring an ideal
collision-free hash. -/
inductive HashTerm where
  | leafH (s : String)
  | nodeH (a b : HashTerm)
deriving DecidableEq

/-! Helper lemmas about the embedding. -/

theorem uint64ToInt_le (n : Nat) : uint64ToInt n ≤ (n : Int) := by
  unfold uint64ToInt
  split <;> omega

theorem leaves_length {α : Type} : ∀ t : Node α, t.leaves.length = t.leafCount
  | .leaf _ => rfl
  | .inner _ l r => by
      simp [Node.leaves, Node.leafCount, leaves_length l, leaves_length r]

theorem getLeafHash_eq_getElem {α : Type} : ∀ (t : Node α) (i : Nat), i < t.leafCount →
    t.leaves[i]? = some (t.getLeafHash i)
  | .leaf h, i, hi => by
      have : i = 0 := by simpa [Node.leafCount] using hi
      subst this
      rfl
  | .inner _ l r, i, hi => by
      simp only [Node.leaves, Node.getLeafHash]
      split
      · rw [List.getElem?_append_left (by rw [leaves_length]; assumption)]
        exact getLeafHash_eq_getElem l i (by assumption)
      · rw [List.getElem?_append_right (by rw [leaves_length]; omega), leaves_length]
        exact getLeafHash_eq_getElem r (i - l.leafCount)
          (by simp only [Node.leafCount] at hi; omega)

theorem proofPath_length {α : Type} : ∀ (t : Node α) (i : Nat),
    (t.proofPath i).1.length = (t.proofPath i).2.length
  | .leaf _, _ => rfl
  | .inner _ l r, i => by
      simp only [Node.proofPath]
      split
      · simp [proofPath_length l i]
      · simp [proofPath_length r (i - l.leafCount)]

theorem verifyLoop_append {α : Type} (hn : α → α → α) :
    ∀ (s1 : List α) (d1 : List Bool) (c : α) (s2 : List α) (d2 : List Bool),
    s1.length = d1.length →
    verifyLoop hn c (s1 ++ s2) (d1 ++ d2) =
      (verifyLoop hn c s1 d1).bind fun c2 => verifyLoop hn c2 s2 d2
  | [], [], c, s2, d2, _ => by simp [verifyLoop]
  | [], _ :: _, _, _, _, h => by simp at h
  | _ :: _, [], _, _, _, h => by simp at h
  | s :: ss, d :: ds, c, s2, d2, h => by
      simp only [List.cons_append, verifyLoop]
      exact verifyLoop_append hn ss ds _ s2 d2 (by simpa using h)

theorem verifyLoop_isSome {α : Type} (hn : α → α → α) :
    ∀ (s : List α) (d : List Bool) (c : α), s.length ≤ d.length →
    ∃ r, verifyLoop hn c s d = some r
  | [], _, c, _ => ⟨c, rfl⟩
  | _ :: _, [], _, h => absurd h (by simp)
  | _ :: ss, _ :: ds, _, h => verifyLoop_isSome hn ss ds _ (by simpa using h)

theorem hashValid_inner_iff {α : Type} [DecidableEq α] (hn : α → α → α)
    (h : α) (l r : Node α) :
    Node.hashValid hn (.inner h l r) = true ↔
      h = hn l.hash r.hash ∧ Node.hashValid hn l = true ∧ Node.hashValid hn r = true := by
  simp [Node.hashValid, and_assoc]

theorem verify_proofPath {α : Type} [DecidableEq α] (hn : α → α → α) :
    ∀ t : Node α, Node.hashValid hn t = true → ∀ i : Nat, i < t.leafCount →
    verifyLoop hn (t.getLeafHash i) (t.proofPath i).1 (t.proofPath i).2 = some t.hash
  | .leaf _, _, _, _ => rfl
  | .inner h l r, hv, i, hi => by
      rw [hashValid_inner_iff] at hv
      obtain ⟨hh, hvl, hvr⟩ := hv
      simp only [Node.getLeafHash, Node.proofPath, Node.hash]
      split
      · rw [verifyLoop_append hn _ _ _ _ _ (proofPath_length l i),
          verify_proofPath hn l hvl i (by assumption)]
        simp [verifyLoop, hh, Node.hash]
      · have hir : i - l.leafCount < r.leafCount := by
          simp only [Node.leafCount] at hi; omega
        rw [verifyLoop_append hn _ _ _ _ _ (proofPath_length r (i - l.leafCount)),
          verify_proofPath hn r hvr (i - l.leafCount) hir]
        simp [verifyLoop, hh, Node.hash]

theorem pairUp_leaves {α : Type} (hn : α → α → α) :
    ∀ (l m : List (Node α)), pairUp hn l = some m →
    (m.map Node.leaves).flatten = (l.map Node.leaves).flatten
  | [], _, h => by cases h; rfl
  | [_], _, h => by cases h
  | a :: b :: rest, m, h => by
      rw [pairUp, Option.map_eq_some'] at h
      obtain ⟨m2, hm2, rfl⟩ := h
      simp [Node.leaves, pairUp_leaves hn rest m2 hm2]

theorem pairUp_hashValid {α : Type} [DecidableEq α] (hn : α → α → α) :
    ∀ (l m : List (Node α)), pairUp hn l = some m →
    (∀ x ∈ l, Node.hashValid hn x = true) → ∀ x ∈ m, Node.hashValid hn x = true
  | [], _, h, _ => by cases h; simp
  | [_], _, h, _ => by cases h
  | a :: b :: rest, m, h, hval => by
      rw [pairUp, Option.map_eq_some'] at h
      obtain ⟨m2, hm2, rfl⟩ := h
      intro x hx
      rcases List.mem_cons.mp hx with rfl | hx2
      · rw [hashValid_inner_iff]
        exact ⟨rfl, hval a (by simp), hval b (by simp)⟩
      · exact pairUp_hashValid hn rest m2 hm2 (fun y hy => hval y (by simp [hy])) x hx2

theorem buildLoop_ok {α : Type} [DecidableEq α] (hn : α → α → α) :
    ∀ (fuel : Nat) (l : List (Node α)) (t : Node α), buildLoop hn fuel l = .ok t →
    ((∀ x ∈ l, Node.hashValid hn x = true) → Node.hashValid hn t = true) ∧
    t.leaves = (l.map Node.leaves).flatten
  | _, [t0], t, h => by
      simp only [buildLoop] at h
      cases h
      exact ⟨fun hv => hv t0 (by simp), by simp⟩
  | _, [], t, h => by simp [buildLoop] at h
  | 0, _ :: _ :: _, t, h => by simp [buildLoop] at h
  | fuel + 1, a :: b :: rest, t, h => by
      simp only [buildLoop] at h
      cases hm : pairUp hn (a :: b :: rest) with
      | none => rw [hm] at h; cases h
      | some m =>
          rw [hm] at h
          have ih := buildLoop_ok hn fuel m t h
          exact ⟨fun hv => ih.1 (pairUp_hashValid hn _ m hm hv),
            ih.2.trans (pairUp_leaves hn _ m hm)⟩

theorem flatten_leaves_of_hashes {α : Type} :
    ∀ hs : List α, ((hs.map Node.leaf).map Node.leaves).flatten = hs
  | [] => rfl
  | h :: rest => by
      simp only [List.map_cons, List.flatten_cons, Node.leaves,
        flatten_leaves_of_hashes rest, List.singleton_append]

/-- Every successful NewMerkleTree call yields a tree whose internal hashes
satisfy the invariant and whose leaf hashes are the hashed elements followed
by the empty-string padding. -/
theorem NewMerkleTree_ok {α : Type} [DecidableEq α] (hl : String → α) (hn : α → α → α)
    (elements : List String) (t : MerkleTree α)
    (h : NewMerkleTree hl hn elements = .ok t) :
    Node.hashValid hn t.root = true ∧
    t.root.leaves = elements.map hl ++
      List.replicate ((getNextPowerOfTwo (elements.length : Int)).toNat - elements.length)
        (hl "") := by
  simp only [NewMerkleTree] at h
  split at h
  · cases h
  · split at h
    · cases h
    · set k := (getNextPowerOfTwo (elements.length : Int)).toNat -
        (elements.map fun e => Node.leaf (hl e)).length with hk
      set padded := (elements.map fun e => Node.leaf (hl e)) ++
        List.replicate k (Node.leaf (hl "")) with hp
      cases hb : buildLoop hn padded.length padded with
      | ok r =>
          rw [hb] at h
          cases h
          have hbo := buildLoop_ok hn padded.length padded r hb
          constructor
          · refine hbo.1 ?_
            intro x hx
            rw [hp] at hx
            rcases List.mem_append.mp hx with hx2 | hx2
            · obtain ⟨e, _, rfl⟩ := List.mem_map.mp hx2
              rfl
            · rw [List.eq_of_mem_replicate hx2]
              rfl
          · rw [hbo.2, hp]
            have h1 : (elements.map fun e => Node.leaf (hl e)) =
                (elements.map hl).map Node.leaf := by
              simp [List.map_map]
            have h2 : List.replicate k (Node.leaf (hl "")) =
                (List.replicate k (hl "")).map Node.leaf := by
              simp [List.map_replicate]
            rw [h1, h2, ← List.map_append, flatten_leaves_of_hashes]
            congr 2
            rw [hk]
            simp
      | err m => rw [hb] at h; cases h
      | panicked m => rw [hb] at h; cases h

/-- Valid indices always pass both checks of GetProof: below 2^63 the int
cast is the identity, and above it the cast is negative, so in either case
the error branch is not taken, and the index is within the slice. -/
theorem GetProof_ok {α : Type} (t : MerkleTree α) (i : Nat) (hi : i < t.root.leafCount) :
    t.GetProof i =
      .ok ⟨t.root.getLeafHash i, (t.root.proofPath i).1, (t.root.proofPath i).2⟩ := by
  rw [MerkleTree.GetProof, if_neg, if_neg]
  · omega
  · have := uint64ToInt_le i
    have : (i : Int) < (t.root.leafCount : Int) := by exact_mod_cast hi
    omega

theorem UpdateElement_ok {α : Type} (hl : String → α) (hn : α → α → α)
    (t : MerkleTree α) (i : Nat) (x : String) (hi : i < t.root.leafCount) :
    t.UpdateElement hl hn i x = .ok ⟨updateAt hl hn t.root i x⟩ := by
  rw [MerkleTree.UpdateElement, if_neg, if_neg]
  · omega
  · have := uint64ToInt_le i
    have : (i : Int) < (t.root.leafCount : Int) := by exact_mod_cast hi
    omega

theorem VerifyProof_getProof {α : Type} [DecidableEq α] (hn : α → α → α)
    (t : MerkleTree α) (hv : Node.hashValid hn t.root = true) (i : Nat)
    (hi : i < t.root.leafCount) :
    VerifyProof hn t.getRoot
      ⟨t.root.getLeafHash i, (t.root.proofPath i).1, (t.root.proofPath i).2⟩ = .ok true := by
  rw [VerifyProof]
  simp only [verify_proofPath hn t.root hv i hi]
  simp [MerkleTree.getRoot]

theorem updateAt_leafCount {α : Type} (hl : String → α) (hn : α → α → α) :
    ∀ (t : Node α) (i : Nat) (x : String),
    (updateAt hl hn t i x).leafCount = t.leafCount
  | .leaf _, _, _ => rfl
  | .inner _ l r, i, x => by
      rw [updateAt]
      split <;>
        simp [Node.leafCount, updateAt_leafCount hl hn l i x,
          updateAt_leafCount hl hn r (i - l.leafCount) x]

theorem updateAt_hashValid {α : Type} [DecidableEq α] (hl : String → α) (hn : α → α → α) :
    ∀ (t : Node α) (i : Nat) (x : String), Node.hashValid hn t = true →
    Node.hashValid hn (updateAt hl hn t i x) = true
  | .leaf _, _, _, _ => rfl
  | .inner h l r, i, x, hv => by
      rw [hashValid_inner_iff] at hv
      rw [updateAt]
      split
      · rw [hashValid_inner_iff]
        exact ⟨rfl, updateAt_hashValid hl hn l i x hv.2.1, hv.2.2⟩
      · rw [hashValid_inner_iff]
        exact ⟨rfl, hv.2.1, updateAt_hashValid hl hn r (i - l.leafCount) x hv.2.2⟩

theorem updateAt_getLeafHash {α : Type} (hl : String → α) (hn : α → α → α) :
    ∀ (t : Node α) (i : Nat) (x : String), i < t.leafCount →
    (updateAt hl hn t i x).getLeafHash i = hl x
  | .leaf _, _, _, _ => rfl
  | .inner _ l r, i, x, hi => by
      rw [updateAt]
      split
      · rw [Node.getLeafHash, if_pos (by rwa [updateAt_leafCount])]
        exact updateAt_getLeafHash hl hn l i x (by assumption)
      · rw [Node.getLeafHash, if_neg (by assumption)]
        exact updateAt_getLeafHash hl hn r (i - l.leafCount) x
          (by simp only [Node.leafCount] at hi; omega)

/-- Changing the hash of an in-range leaf changes the root hash, provided
the node-hash function is injective in each argument pair. -/
theorem updateAt_hash_ne {α : Type} [DecidableEq α] (hl : String → α) (hn : α → α → α)
    (hinj : ∀ a b c d, hn a b = hn c d → a = c ∧ b = d) :
    ∀ (t : Node α) (i : Nat) (x : String), Node.hashValid hn t = true →
    i < t.leafCount → hl x ≠ t.getLeafHash i →
    (updateAt hl hn t i x).hash ≠ t.hash
  | .leaf h, i, x, _, _, hne => by
      simpa [updateAt, Node.hash, Node.getLeafHash] using hne
  | .inner h l r, i, x, hv, hi, hne => by
      rw [hashValid_inner_iff] at hv
      rw [updateAt]
      split
      · intro hcontra
        simp only [Node.hash, hv.1] at hcontra
        exact updateAt_hash_ne hl hn hinj l i x hv.2.1 (by assumption)
          (by rwa [Node.getLeafHash, if_pos (by assumption)] at hne)
          (hinj _ _ _ _ hcontra).1
      · intro hcontra
        simp only [Node.hash, hv.1] at hcontra
        have hir : i - l.leafCount < r.leafCount := by
          simp only [Node.leafCount] at hi; omega
        exact updateAt_hash_ne hl hn hinj r (i - l.leafCount) x hv.2.2 hir
          (by rwa [Node.getLeafHash, if_neg (by assumption)] at hne)
          (hinj _ _ _ _ hcontra).2

/-! Claim theorems.  Concrete instances instantiate the digest parameter
with HashTerm, whose constructors form an ideal injective hash. -/

/-- Concrete two-leaf tree over HashTerm, the value NewMerkleTree returns
for the elements x and y; used in witness instantiations. -/
def nodeXY : Node HashTerm :=
  .inner (.nodeH (.leafH "x") (.leafH "y")) (.leaf (.leafH "x")) (.leaf (.leafH "y"))

/-- C1: for every element sequence from which NewMerkleTree builds a tree,
and every valid index below the padded leaf count, GetProof succeeds and
VerifyProof accepts the resulting proof against the root. -/
theorem claim1_getProof_verifies {α : Type} [DecidableEq α]
    (hl : String → α) (hn : α → α → α) (elements : List String)
    (t : MerkleTree α) (i : Nat)
    (hok : NewMerkleTree hl hn elements = .ok t) (hi : i < t.root.leafCount) :
    ∃ p, t.GetProof i = .ok p ∧ VerifyProof hn t.getRoot p = .ok true :=
  ⟨_, GetProof_ok t i hi,
    VerifyProof_getProof hn t (NewMerkleTree_ok hl hn elements t hok).1 i hi⟩

/-- Witness for C1: the tree built from the two elements x and y, at
index 1. -/
theorem claim1_witness :
    ∃ p, (MerkleTree.mk nodeXY).GetProof 1 = .ok p ∧
      VerifyProof HashTerm.nodeH (MerkleTree.mk nodeXY).getRoot p = .ok true :=
  claim1_getProof_verifies HashTerm.leafH HashTerm.nodeH ["x", "y"]
    (MerkleTree.mk nodeXY) 1 rfl (by decide)

/-- C2 as stated is false: when a proof carries more siblings than
directions, the read of directions[i] inside the loop of VerifyProof panics
instead of returning false. -/
theorem claim2_counterexample :
    VerifyProof HashTerm.nodeH (HashTerm.leafH "r")
      ⟨HashTerm.leafH "x", [HashTerm.leafH "s"], []⟩ = .panicked "index out of range" :=
  rfl

/-- C2 amended: VerifyProof returns a boolean whenever the proof has at
least as many directions as siblings; VerifyAggregatedProof returns false
for out-of-range aggregated indices without touching the proof lists, and
returns a boolean whenever its directions cover its siblings.  Only a proof
whose siblings outnumber its directions makes either function panic. -/
theorem claim2_amended_totality {α : Type} [DecidableEq α] (hn : α → α → α) :
    (∀ (root : α) (proof : MerkleProof α),
      proof.siblings.length ≤ proof.directions.length →
      ∃ b, VerifyProof hn root proof = .ok b) ∧
    (∀ (root : α) (ap : AggregatedMerkleProof α) (tree : MerkleTree α),
      ap.endIdx ≤ ap.start ∨ tree.root.leafCount < ap.endIdx →
      VerifyAggregatedProof hn root ap tree = .ok false) ∧
    (∀ (root : α) (ap : AggregatedMerkleProof α) (tree : MerkleTree α),
      ap.siblings.length ≤ ap.directions.length →
      ∃ b, VerifyAggregatedProof hn root ap tree = .ok b) := by
  refine ⟨?_, ?_, ?_⟩
  · intro root proof hlen
    obtain ⟨r, hr⟩ := verifyLoop_isSome hn proof.siblings proof.directions proof.hElement hlen
    exact ⟨decide (r = root), by rw [VerifyProof, hr]⟩
  · intro root ap tree hcond
    rw [VerifyAggregatedProof, if_pos hcond]
  · intro root ap tree hlen
    rw [VerifyAggregatedProof]
    split
    · exact ⟨false, rfl⟩
    · obtain ⟨r, hr⟩ := verifyLoop_isSome hn ap.siblings ap.directions
        (tree.root.getLeafHash ap.start) hlen
      rw [hr]
      exact ⟨decide (r = root), rfl⟩

/-- Witness for C2 amended, at concrete aligned proofs and an out-of-range
aggregated proof. -/
theorem claim2_witness :
    (∃ b, VerifyProof HashTerm.nodeH (HashTerm.leafH "r")
      ⟨HashTerm.leafH "x", [HashTerm.leafH "s"], [false]⟩ = .ok b) ∧
    VerifyAggregatedProof HashTerm.nodeH (HashTerm.leafH "r")
      ⟨3, 1, [], []⟩ ⟨Node.leaf (HashTerm.leafH "a")⟩ = .ok false ∧
    (∃ b, VerifyAggregatedProof HashTerm.nodeH (HashTerm.leafH "r")
      ⟨0, 1, [], []⟩ ⟨Node.leaf (HashTerm.leafH "a")⟩ = .ok b) :=
  ⟨(claim2_amended_totality HashTerm.nodeH).1 _ _ (by decide),
   (claim2_amended_totality HashTerm.nodeH).2.1 _ _ _ (by decide),
   (claim2_amended_totality HashTerm.nodeH).2.2 _ _ _ (by decide)⟩

/-- C3 names a code bug: the bounds check casts the uint64 index to int, so
at index 2^63 on a one-leaf tree the check passes and both GetProof and
UpdateElement panic on the slice access instead of returning the documented
index-out-of-bounds error, even though the index is out of bounds (final
conjunct). -/
theorem claim3_cast_panic :
    NewMerkleTree HashTerm.leafH HashTerm.nodeH ["a"] =
      .ok ⟨Node.leaf (HashTerm.leafH "a")⟩ ∧
    MerkleTree.GetProof ⟨Node.leaf (HashTerm.leafH "a")⟩ 9223372036854775808 =
      .panicked "index out of range" ∧
    MerkleTree.UpdateElement HashTerm.leafH HashTerm.nodeH
      ⟨Node.leaf (HashTerm.leafH "a")⟩ 9223372036854775808 "x" =
      .panicked "index out of range" ∧
    (MerkleTree.mk (Node.leaf (HashTerm.leafH "a"))).root.leafCount ≤ 9223372036854775808 :=
  ⟨rfl, rfl, rfl, by decide⟩

/-- C4 names a code bug: the range check casts endIndex to int, so with
endIndex 2^63 on a one-leaf tree the range is accepted and a proof returned,
although endIndex exceeds the leaf count (second conjunct); the
RangeTooSmallError branch, by contrast, is indeed unreachable (third
conjunct). -/
theorem claim4_cast_accepts_range :
    MerkleTree.GetAggregatedProof ⟨Node.leaf (HashTerm.leafH "a")⟩ 0 9223372036854775808 =
      .ok ⟨0, 9223372036854775808, [], []⟩ ∧
    (MerkleTree.mk (Node.leaf (HashTerm.leafH "a"))).root.leafCount < 9223372036854775808 ∧
    (∀ (α : Type) (t : MerkleTree α) (s e : Nat),
      t.GetAggregatedProof s e ≠ .err "an aggregated proof must contain at least two elements") := by
  refine ⟨rfl, by decide, ?_⟩
  intro α t s e
  rw [MerkleTree.GetAggregatedProof]
  split
  · simp only [ne_eq, GoResult.err.injEq]
    decide
  · rename_i hcond
    rw [if_neg]
    · split <;> simp
    · push_neg at hcond
      omega

/-- C5 names a code bug: the smear covers only 32 bits, so at the int64
input 2^32 + 1 (a positive value) the result is 2^33 - 1, which is not a
power of two at all, let alone the smallest one at or above the input. -/
theorem claim5_smear_not_power :
    getNextPowerOfTwo 4294967297 = 8589934591 ∧
    (∀ k : Nat, getNextPowerOfTwo 4294967297 ≠ 2 ^ k) ∧
    ¬ (4294967297 : Int) ≤ 0 := by
  refine ⟨rfl, ?_, by decide⟩
  intro k
  have h1 : getNextPowerOfTwo 4294967297 = 8589934591 := rfl
  rw [h1]
  rcases le_or_lt k 32 with h | h
  · have h2 : (2 : Int) ^ k ≤ 2 ^ 32 := pow_le_pow_right₀ (by norm_num) h
    have h3 : (2 : Int) ^ 32 = 4294967296 := by norm_num
    omega
  · have h2 : (2 : Int) ^ 33 ≤ 2 ^ k := pow_le_pow_right₀ (by norm_num) (by omega)
    have h3 : (2 : Int) ^ 33 = 8589934592 := by norm_num
    omega

/-- C6: the parent-hash invariant holds for every internal node immediately
after NewMerkleTree and is preserved by every successful UpdateElement.  A
failed UpdateElement call (error return or panic) performs no mutation,
because the validation and the panicking slice access both precede the
first assignment, so the tree and hence the invariant are untouched in
those cases; in the functional embedding this is definitional, as only the
ok case produces a tree. -/
theorem claim6_invariant {α : Type} [DecidableEq α] (hl : String → α) (hn : α → α → α) :
    (∀ (elements : List String) (t : MerkleTree α),
      NewMerkleTree hl hn elements = .ok t → Node.hashValid hn t.root = true) ∧
    (∀ (t : MerkleTree α) (i : Nat) (x : String) (t2 : MerkleTree α),
      Node.hashValid hn t.root = true → t.UpdateElement hl hn i x = .ok t2 →
      Node.hashValid hn t2.root = true) := by
  constructor
  · intro elements t hok
    exact (NewMerkleTree_ok hl hn elements t hok).1
  · intro t i x t2 hv hup
    rw [MerkleTree.UpdateElement] at hup
    split at hup
    · cases hup
    · split at hup
      · cases hup
      · cases hup
        exact updateAt_hashValid hl hn t.root i x hv

/-- Witness for C6: the invariant after building from x and y, and after
updating index 0 of that tree to z. -/
theorem claim6_witness :
    Node.hashValid HashTerm.nodeH nodeXY = true ∧
    Node.hashValid HashTerm.nodeH (Node.inner (HashTerm.nodeH (.leafH "z") (.leafH "y"))
      (.leaf (.leafH "z")) (.leaf (.leafH "y"))) = true :=
  ⟨(claim6_invariant HashTerm.leafH HashTerm.nodeH).1 ["x", "y"] (MerkleTree.mk nodeXY) rfl,
   (claim6_invariant HashTerm.leafH HashTerm.nodeH).2 (MerkleTree.mk nodeXY) 0 "z"
     ⟨Node.inner (HashTerm.nodeH (.leafH "z") (.leafH "y"))
       (.leaf (.leafH "z")) (.leaf (.leafH "y"))⟩ (by decide) rfl⟩

/-- C7: building from the three elements some, test and elements pads to
four leaves and produces the root
hashNode(hashNode(hashLeaf some, hashLeaf test),
hashNode(hashLeaf elements, hashLeaf of the empty string)), for every
choice of the two hash functions. -/
theorem claim7_three_element_root {α : Type} (hl : String → α) (hn : α → α → α) :
    ∃ t, NewMerkleTree hl hn ["some", "test", "elements"] = .ok t ∧
      t.root.leafCount = 4 ∧
      t.getRoot = hn (hn (hl "some") (hl "test")) (hn (hl "elements") (hl "")) :=
  ⟨⟨.inner (hn (hn (hl "some") (hl "test")) (hn (hl "elements") (hl "")))
      (.inner (hn (hl "some") (hl "test")) (.leaf (hl "some")) (.leaf (hl "test")))
      (.inner (hn (hl "elements") (hl "")) (.leaf (hl "elements")) (.leaf (hl "")))⟩,
    rfl, rfl, rfl⟩

/-- C8: after a successful UpdateElement the proof for the updated index
carries the new leaf hash and verifies against the new root; and the root
changes whenever the new element differs from the one previously at the
index, under the collision-freedom hypotheses that the leaf hash is
injective and the node hash is injective as a pairing. -/
theorem claim8_update_refreshes_proof {α : Type} [DecidableEq α]
    (hl : String → α) (hn : α → α → α) (t : MerkleTree α) (i : Nat) (x : String)
    (hv : Node.hashValid hn t.root = true) (hi : i < t.root.leafCount) :
    ∃ t2, t.UpdateElement hl hn i x = .ok t2 ∧
      (∃ p, t2.GetProof i = .ok p ∧ p.hElement = hl x ∧
        VerifyProof hn t2.getRoot p = .ok true) ∧
      (∀ y : String, Function.Injective hl →
        (∀ a b c d, hn a b = hn c d → a = c ∧ b = d) →
        t.root.getLeafHash i = hl y → x ≠ y → t2.getRoot ≠ t.getRoot) := by
  refine ⟨⟨updateAt hl hn t.root i x⟩, UpdateElement_ok hl hn t i x hi, ?_, ?_⟩
  · have hi2 : i < (updateAt hl hn t.root i x).leafCount := by
      rwa [updateAt_leafCount]
    exact ⟨_, GetProof_ok ⟨updateAt hl hn t.root i x⟩ i hi2,
      updateAt_getLeafHash hl hn t.root i x hi,
      VerifyProof_getProof hn ⟨updateAt hl hn t.root i x⟩
        (updateAt_hashValid hl hn t.root i x hv) i hi2⟩
  · intro y hinjl hinjn hprev hxy
    have hne : hl x ≠ t.root.getLeafHash i := by
      rw [hprev]
      exact fun hc => hxy (hinjl hc)
    exact updateAt_hash_ne hl hn hinjn t.root i x hv hi hne

/-- Witness for C8: update index 0 of the two-leaf tree to z. -/
theorem claim8_witness :
    Node.hashValid HashTerm.nodeH nodeXY = true ∧ 0 < nodeXY.leafCount ∧
    (∃ t2, (MerkleTree.mk nodeXY).UpdateElement HashTerm.leafH HashTerm.nodeH 0 "z" = .ok t2 ∧
      (∃ p, t2.GetProof 0 = .ok p ∧ p.hElement = HashTerm.leafH "z" ∧
        VerifyProof HashTerm.nodeH t2.getRoot p = .ok true) ∧
      (∀ y : String, Function.Injective HashTerm.leafH →
        (∀ a b c d, HashTerm.nodeH a b = HashTerm.nodeH c d → a = c ∧ b = d) →
        nodeXY.getLeafHash 0 = HashTerm.leafH y → "z" ≠ y →
        t2.getRoot ≠ (MerkleTree.mk nodeXY).getRoot)) :=
  ⟨by decide, by decide,
    claim8_update_refreshes_proof HashTerm.leafH HashTerm.nodeH
      (MerkleTree.mk nodeXY) 0 "z" (by decide) (by decide)⟩

/-- C9: VerifyAggregatedProof never reads the end field beyond the range
check, so two aggregated proofs over the same tree that agree on start,
siblings and directions and whose ranges are both well formed receive the
same verdict, whatever their end fields. -/
theorem claim9_verify_ignores_end {α : Type} [DecidableEq α] (hn : α → α → α)
    (root : α) (tree : MerkleTree α) (p1 p2 : AggregatedMerkleProof α)
    (hs : p1.start = p2.start) (hsib : p1.siblings = p2.siblings)
    (hdir : p1.directions = p2.directions)
    (h1a : p1.start < p1.endIdx) (h1b : p1.endIdx ≤ tree.root.leafCount)
    (h2a : p2.start < p2.endIdx) (h2b : p2.endIdx ≤ tree.root.leafCount) :
    VerifyAggregatedProof hn root p1 tree = VerifyAggregatedProof hn root p2 tree := by
  obtain ⟨s1, e1, sb1, d1⟩ := p1
  obtain ⟨s2, e2, sb2, d2⟩ := p2
  dsimp only at hs hsib hdir h1a h1b h2a h2b
  subst hs hsib hdir
  rw [VerifyAggregatedProof, VerifyAggregatedProof, if_neg (by dsimp only; omega),
    if_neg (by dsimp only; omega)]

/-- Witness for C9: two aggregated proofs on the two-leaf tree that differ
only in their end field. -/
theorem claim9_witness :
    VerifyAggregatedProof HashTerm.nodeH (HashTerm.leafH "r")
      ⟨0, 1, [HashTerm.leafH "s"], [false]⟩ (MerkleTree.mk nodeXY) =
    VerifyAggregatedProof HashTerm.nodeH (HashTerm.leafH "r")
      ⟨0, 2, [HashTerm.leafH "s"], [false]⟩ (MerkleTree.mk nodeXY) :=
  claim9_verify_ignores_end HashTerm.nodeH (HashTerm.leafH "r") (MerkleTree.mk nodeXY)
    ⟨0, 1, [HashTerm.leafH "s"], [false]⟩ ⟨0, 2, [HashTerm.leafH "s"], [false]⟩
    rfl rfl rfl (by decide) (by decide) (by decide) (by decide)

/-- C10: in a tree built from elements whose count is below the padded leaf
count, GetProof accepts every padding index, the returned proof carries the
hash of the empty string, and VerifyProof accepts it against the root.
This covers every non-power-of-two element count, where padding indices
exist. -/
theorem claim10_padding_proof {α : Type} [DecidableEq α] (hl : String → α) (hn : α → α → α)
    (elements : List String) (t : MerkleTree α) (i : Nat)
    (hok : NewMerkleTree hl hn elements = .ok t)
    (hlo : elements.length ≤ i) (hi : i < t.root.leafCount) :
    ∃ p, t.GetProof i = .ok p ∧ p.hElement = hl "" ∧
      VerifyProof hn t.getRoot p = .ok true := by
  obtain ⟨hv, hleq⟩ := NewMerkleTree_ok hl hn elements t hok
  refine ⟨_, GetProof_ok t i hi, ?_, VerifyProof_getProof hn t hv i hi⟩
  have hget := getLeafHash_eq_getElem t.root i hi
  have hL := leaves_length t.root
  rw [hleq] at hget hL
  simp only [List.length_append, List.length_map, List.length_replicate] at hL
  rw [List.getElem?_append_right (by simpa using hlo), List.getElem?_replicate,
    if_pos (by simp only [List.length_map]; omega)] at hget
  exact (Option.some_inj.mp hget).symm

/-- Witness for C10: padding index 3 of the tree built from three
elements. -/
theorem claim10_witness :
    ∃ p, (MerkleTree.mk (Node.inner
        (HashTerm.nodeH (.nodeH (.leafH "a") (.leafH "b")) (.nodeH (.leafH "c") (.leafH "")))
        (.inner (.nodeH (.leafH "a") (.leafH "b")) (.leaf (.leafH "a")) (.leaf (.leafH "b")))
        (.inner (.nodeH (.leafH "c") (.leafH "")) (.leaf (.leafH "c")) (.leaf (.leafH ""))))).GetProof 3 =
        .ok p ∧
      p.hElement = HashTerm.leafH "" ∧
      VerifyProof HashTerm.nodeH (MerkleTree.mk (Node.inner
        (HashTerm.nodeH (.nodeH (.leafH "a") (.leafH "b")) (.nodeH (.leafH "c") (.leafH "")))
        (.inner (.nodeH (.leafH "a") (.leafH "b")) (.leaf (.leafH "a")) (.leaf (.leafH "b")))
        (.inner (.nodeH (.leafH "c") (.leafH "")) (.leaf (.leafH "c")) (.leaf (.leafH ""))))).getRoot
        p = .ok true :=
  claim10_padding_proof HashTerm.leafH HashTerm.nodeH ["a", "b", "c"] _ 3 rfl
    (by decide) (by decide)
